import Mathlib

/-!
Verification development for the sosie watcher/indexer core
(`src/watcher`, `src/indexer`).

Paths are modelled as lists of path components; timestamps as natural
numbers (milliseconds); machine floats used only as timestamps in the
source carry no arithmetic beyond comparison and subtraction, so `Nat`
is faithful for the properties below.
-/

/-- A filesystem path, as its list of components. -/
abbrev FPath := List String

/-- Semantic file-event kinds (`EventType` in `models.py`). -/
inductive EventType where
  | add
  | delete
  | update
  | move
deriving DecidableEq, Inhabited

/-- `FileEvent` from `models.py`: the unit of communication between watcher
and indexer.  `root` is modelled as an `Option` because the pseudocode's
`FileEvent(EventType.ADD, path, ...)` elides root resolution, which can
fail for paths outside every root. -/
structure FileEvent where
  event_type : EventType
  path : FPath
  root : Option FPath
  old_path : Option FPath
  old_root : Option FPath
  timestamp : Nat
deriving DecidableEq

/-- The filename component of a path (`path.name` in Python). -/
def fileName (p : FPath) : String := p.getLastD ""

/-- Longest-prefix root lookup (`RootManager.find_root_for_path`). -/
def find_root_for_path (roots : List FPath) (p : FPath) : Option FPath :=
  (roots.filter (fun r => r.isPrefixOf p)).foldl
    (fun acc r =>
      match acc with
      | none => some r
      | some b => if b.length < r.length then some r else some b)
    none

/-- Move semantics from `event_processor.py`'s `_handle_move`: both sides in
roots gives MOVE; source-only gives DELETE; destination-only gives ADD; the
Python `if/elif` chain has no final branch, so neither side in a root
yields no event. -/
def handle_move (roots : List FPath) (src dest : FPath) (ts : Nat) :
    Option FileEvent :=
  match find_root_for_path roots src, find_root_for_path roots dest with
  | some src_root, some dest_root =>
      some ⟨.move, dest, some dest_root, some src, some src_root, ts⟩
  | some src_root, none =>
      some ⟨.delete, src, some src_root, none, none, ts⟩
  | none, some dest_root =>
      some ⟨.add, dest, some dest_root, none, none, ts⟩
  | none, none => none

/-- The `MoveCorrelator`'s pending-deletes map: filename to (path, time),
kept in insertion order like a Python dict. -/
abbrev PendingDeletes := List (String × FPath × Nat)

namespace MoveCorrelator

/-- Python dict assignment `d[k] = v`: replace in place (keeping the key's
original position) when present, else append. -/
def pdAssign : PendingDeletes → String → FPath → Nat → PendingDeletes
  | [], fn, p, t => [(fn, p, t)]
  | (fn0, p0, t0) :: rest, fn, p, t =>
    if fn0 = fn then (fn, p, t) :: rest
    else (fn0, p0, t0) :: pdAssign rest fn p t

/-- Python dict membership plus read of the first matching key. -/
def pdLookup : PendingDeletes → String → Option (FPath × Nat)
  | [], _ => none
  | (fn0, p0, t0) :: rest, fn =>
    if fn0 = fn then some (p0, t0) else pdLookup rest fn

/-- Python dict `pop`: removes the first entry with the given key. -/
def pdPop : PendingDeletes → String → PendingDeletes
  | [], _ => []
  | (fn0, e) :: rest, fn =>
    if fn0 = fn then rest else (fn0, e) :: pdPop rest fn

/-- `MoveCorrelator.on_delete`: record the delete keyed by filename and
defer emission (returns no event). -/
def on_delete (s : PendingDeletes) (p : FPath) (t : Nat) :
    PendingDeletes × Option FileEvent :=
  (pdAssign s (fileName p) p t, none)

/-- `MoveCorrelator.on_create`, from the pseudocode in
`src/watcher/DESIGN.md`: if a pending delete with the same filename exists
it is popped unconditionally, then the correlation window is checked; a
hit inside the window becomes a move, otherwise the create is an ADD.
`w` is the correlation window (`MOVE_CORRELATION_WINDOW_MS`, default 100). -/
def on_create (roots : List FPath) (w : Nat) (s : PendingDeletes)
    (p : FPath) (t : Nat) : PendingDeletes × Option FileEvent :=
  match pdLookup s (fileName p) with
  | some (old_path, delete_time) =>
    let s2 := pdPop s (fileName p)
    if t - delete_time < w then (s2, handle_move roots old_path p t)
    else (s2, some ⟨.add, p, find_root_for_path roots p, none, none, t⟩)
  | none => (s, some ⟨.add, p, find_root_for_path roots p, none, none, t⟩)

/-- Modelled from the spec: the body of `MoveCorrelator.flush_expired` is
not in the repository (its docstring only says unmatched pending deletes
are emitted as DELETE once the correlation window elapses); entries whose
window has elapsed at `now` become DELETE events and are removed. -/
def flush_expired (roots : List FPath) (w : Nat) (s : PendingDeletes)
    (now : Nat) : List FileEvent × PendingDeletes :=
  (((s.filter (fun e => decide (e.2.2 + w ≤ now)))).map
      (fun e => ⟨.delete, e.2.1, find_root_for_path roots e.2.1,
                 none, none, e.2.2⟩),
   s.filter (fun e => !decide (e.2.2 + w ≤ now)))

end MoveCorrelator

/-- Default move-correlation window in milliseconds. -/
def MOVE_CORRELATION_WINDOW_MS : Nat := 100

/-- C1: a raw delete of `p` followed, within the move-correlation window,
by a raw create of `q` with the same filename, with both paths under
watched roots, makes the correlator emit exactly one event: a MOVE with
`old_path = p` and `path = q`; the delete is deferred (no DELETE), the
create does not surface as ADD, and a later window flush emits nothing. -/
theorem move_pair_single_move (roots : List FPath) (p q rp rq : FPath)
    (t1 t2 w : Nat)
    (hname : fileName p = fileName q)
    (hp : find_root_for_path roots p = some rp)
    (hq : find_root_for_path roots q = some rq)
    (hwin : t2 - t1 < w) :
    (MoveCorrelator.on_delete [] p t1).2 = none ∧
    MoveCorrelator.on_create roots w (MoveCorrelator.on_delete [] p t1).1 q t2
      = ([], some ⟨.move, q, some rq, some p, some rp, t2⟩) ∧
    ∀ t3, MoveCorrelator.flush_expired roots w
        (MoveCorrelator.on_create roots w
          (MoveCorrelator.on_delete [] p t1).1 q t2).1 t3
      = ([], []) := by
  have h2 : MoveCorrelator.on_create roots w
      (MoveCorrelator.on_delete [] p t1).1 q t2
      = ([], some ⟨.move, q, some rq, some p, some rp, t2⟩) := by
    simp [MoveCorrelator.on_delete, MoveCorrelator.on_create,
      MoveCorrelator.pdAssign, MoveCorrelator.pdLookup, MoveCorrelator.pdPop,
      hname, hwin, handle_move, hp, hq]
  refine ⟨rfl, h2, ?_⟩
  intro t3
  rw [h2]
  rfl

/-- Closed instance of C1 at a concrete rename from `a/doc.pdf` to
`b/doc.pdf` inside the default 100 ms window. -/
theorem move_pair_single_move_witness :
    MoveCorrelator.on_create [["a"], ["b"]] MOVE_CORRELATION_WINDOW_MS
        (MoveCorrelator.on_delete [] ["a", "doc.pdf"] 10).1 ["b", "doc.pdf"] 50
      = ([], some ⟨.move, ["b", "doc.pdf"], some ["b"],
                   some ["a", "doc.pdf"], some ["a"], 50⟩) :=
  (move_pair_single_move [["a"], ["b"]] ["a", "doc.pdf"] ["b", "doc.pdf"]
    ["a"] ["b"] 10 50 MOVE_CORRELATION_WINDOW_MS
    rfl (by decide) (by decide) (by decide)).2.1

/-- C3: a correlated delete-create pair resolves by root membership —
both sides under roots gives one MOVE carrying old_path/old_root, source
only gives one DELETE, destination only gives one ADD, and whenever at
least one side is under a root the pair is not dropped. -/
theorem handle_move_root_membership (roots : List FPath) (src dest : FPath)
    (ts : Nat) :
    (∀ sr dr, find_root_for_path roots src = some sr →
       find_root_for_path roots dest = some dr →
       handle_move roots src dest ts
         = some ⟨.move, dest, some dr, some src, some sr, ts⟩) ∧
    (∀ sr, find_root_for_path roots src = some sr →
       find_root_for_path roots dest = none →
       handle_move roots src dest ts
         = some ⟨.delete, src, some sr, none, none, ts⟩) ∧
    (∀ dr, find_root_for_path roots src = none →
       find_root_for_path roots dest = some dr →
       handle_move roots src dest ts
         = some ⟨.add, dest, some dr, none, none, ts⟩) ∧
    ((find_root_for_path roots src).isSome ∨
       (find_root_for_path roots dest).isSome →
       (handle_move roots src dest ts).isSome) := by
  refine ⟨?_, ?_, ?_, ?_⟩
  · intro sr dr hs hd
    simp [handle_move, hs, hd]
  · intro sr hs hd
    simp [handle_move, hs, hd]
  · intro dr hs hd
    simp [handle_move, hs, hd]
  · intro h
    rcases hs : find_root_for_path roots src with _ | sr
    · rcases hd : find_root_for_path roots dest with _ | dr
      · simp [hs, hd] at h
      · simp [handle_move, hs, hd]
    · rcases hd : find_root_for_path roots dest with _ | dr
      · simp [handle_move, hs, hd]
      · simp [handle_move, hs, hd]

/-- Closed instance of C3: a move from watched `a/x` to unwatched `b/x`
degrades to exactly one DELETE. -/
theorem handle_move_root_membership_witness :
    handle_move [["a"]] ["a", "x"] ["b", "x"] 7
      = some ⟨.delete, ["a", "x"], some ["a"], none, none, 7⟩ :=
  (handle_move_root_membership [["a"]] ["a", "x"] ["b", "x"] 7).2.1
    ["a"] (by decide) (by decide)

/-- C8: when the pending delete of `p` has already outlived the window, a
create of a same-filename `q` still pops `p`'s entry before the window
check, returns only an ADD for `q`, and leaves nothing for a later
`flush_expired` to emit as DELETE for `p`. -/
theorem expired_delete_dropped_on_create (roots : List FPath) (p q : FPath)
    (t1 t2 w : Nat)
    (hname : fileName p = fileName q)
    (hexp : ¬ t2 - t1 < w) :
    MoveCorrelator.on_create roots w [(fileName p, p, t1)] q t2
      = ([], some ⟨.add, q, find_root_for_path roots q, none, none, t2⟩) ∧
    ∀ t3, MoveCorrelator.flush_expired roots w
        (MoveCorrelator.on_create roots w [(fileName p, p, t1)] q t2).1 t3
      = ([], []) := by
  have h1 : MoveCorrelator.on_create roots w [(fileName p, p, t1)] q t2
      = ([], some ⟨.add, q, find_root_for_path roots q, none, none, t2⟩) := by
    simp [MoveCorrelator.on_create, MoveCorrelator.pdLookup,
      MoveCorrelator.pdPop, hname, hexp]
  refine ⟨h1, ?_⟩
  intro t3
  rw [h1]
  rfl

/-- Closed instance of C8: the delete of `a/doc.pdf` at t=10 is 300 ms old
when `b/doc.pdf` is created; only an ADD comes out and the queue of
pending deletes is left empty. -/
theorem expired_delete_dropped_on_create_witness :
    MoveCorrelator.on_create [["a"], ["b"]] MOVE_CORRELATION_WINDOW_MS
        [("doc.pdf", ["a", "doc.pdf"], 10)] ["b", "doc.pdf"] 310
      = ([], some ⟨.add, ["b", "doc.pdf"], some ["b"], none, none, 310⟩) :=
  (expired_delete_dropped_on_create [["a"], ["b"]] ["a", "doc.pdf"]
    ["b", "doc.pdf"] 10 310 MOVE_CORRELATION_WINDOW_MS rfl (by decide)).1

/-- C9: a correlated pair with neither side under any watched root matches
none of `_handle_move`'s three branches, so no event at all is produced. -/
theorem handle_move_outside_all_roots (roots : List FPath) (src dest : FPath)
    (ts : Nat)
    (hs : find_root_for_path roots src = none)
    (hd : find_root_for_path roots dest = none) :
    handle_move roots src dest ts = none := by
  simp [handle_move, hs, hd]

/-- Closed instance of C9: with only root `a` watched, a move from `b/x`
to `c/x` produces no event. -/
theorem handle_move_outside_all_roots_witness :
    handle_move [["a"]] ["b", "x"] ["c", "x"] 3 = none :=
  handle_move_outside_all_roots [["a"]] ["b", "x"] ["c", "x"] 3
    (by decide) (by decide)

/-- Default debounce window in milliseconds. -/
def DEBOUNCE_WINDOW_MS : Nat := 50

/-- The `EventDebouncer`'s pending map: path to (event type, timestamp of
the latest raw event), kept in insertion (first-seen) order like a Python
dict. -/
abbrev DebouncePending := List (FPath × EventType × Nat)

namespace EventDebouncer

/-- Modelled from the spec: the body of `EventDebouncer.add` is not in the
repository; its docstring fixes only the four coalescing rules (multiple
UPDATEs to one UPDATE, ADD then UPDATE to ADD, ADD then DELETE to no
event, DELETE then ADD to UPDATE).  Combinations the spec leaves open
keep the latest event type. -/
def mergeEvents : EventType → EventType → Option EventType
  | .add, .delete => none
  | .add, .update => some .add
  | .add, .add => some .add
  | .delete, .add => some .update
  | _, e => some e

/-- Modelled from the spec: `EventDebouncer.add` coalesces the new raw
event into the per-path pending map using `mergeEvents`, keeping the
path's first-seen position and refreshing its timestamp; a fresh path is
appended at the end. -/
def add : DebouncePending → FPath → EventType → Nat → DebouncePending
  | [], p, et, t => [(p, et, t)]
  | (q, oet, ot) :: rest, p, et, t =>
    if q = p then
      match mergeEvents oet et with
      | none => rest
      | some m => (q, m, t) :: rest
    else (q, oet, ot) :: add rest p et t

/-- Modelled from the spec: `EventDebouncer.flush` returns the pending
entries whose debounce window `w` has elapsed at `now`, in pending-map
(first-seen) order, and keeps the rest. -/
def flush (s : DebouncePending) (now w : Nat) :
    DebouncePending × DebouncePending :=
  (s.filter (fun e => decide (e.2.2 + w ≤ now)),
   s.filter (fun e => !decide (e.2.2 + w ≤ now)))

/-- Any path key of `add s p et t` is `p` or a key of `s`. -/
theorem keys_add_subset (s : DebouncePending) (p : FPath) (et : EventType)
    (t : Nat) : ∀ x ∈ (add s p et t).map (fun e => e.1),
      x = p ∨ x ∈ s.map (fun e => e.1) := by
  induction s with
  | nil =>
    intro x hx
    simp [add] at hx
    exact Or.inl hx
  | cons hd rest ih =>
    obtain ⟨q, oet, ot⟩ := hd
    intro x hx
    by_cases hqp : q = p
    · rcases hm : mergeEvents oet et with _ | m
      · simp [add, hqp, hm] at hx
        exact Or.inr (by simp [hx])
      · simp [add, hqp, hm] at hx
        rcases hx with hx | hx
        · exact Or.inl hx
        · exact Or.inr (by simp [hx])
    · simp [add, hqp] at hx
      rcases hx with hx | hx
      · exact Or.inr (by simp [hx])
      · rcases ih x (by simpa using hx) with h | h
        · exact Or.inl h
        · exact Or.inr (by simp at h ⊢; exact Or.inr h)

end EventDebouncer

/-- One merged UPDATE survives any run of UPDATEs on the same path: folding
further UPDATEs into a single pending UPDATE keeps one entry and refreshes
its timestamp to the last arrival. -/
theorem add_update_run (p : FPath) : ∀ (ts : List Nat) (u : Nat),
    List.foldl (fun s v => EventDebouncer.add s p .update v)
      [(p, .update, u)] ts = [(p, .update, ts.getLastD u)] := by
  intro ts
  induction ts with
  | nil => intro u; rfl
  | cons v ts ih =>
    intro u
    have hstep : EventDebouncer.add [(p, EventType.update, u)] p .update v
        = [(p, EventType.update, v)] := by
      simp [EventDebouncer.add, EventDebouncer.mergeEvents]
    simp only [List.foldl_cons, hstep, ih, List.getLastD_cons]

/-- C2: the debouncer's coalescing rules in arrival order — any burst of
UPDATEs leaves one UPDATE stamped with the last arrival; ADD then UPDATE
leaves one ADD; ADD then DELETE cancels to nothing; DELETE then ADD leaves
one UPDATE; a fresh path is appended after the existing entries (preserving
first-seen order); and `flush` returns exactly the pending entries whose
debounce window has elapsed, in pending-map order, keeping the rest. -/
theorem debouncer_merge_rules_and_flush :
    (∀ (p : FPath) (t : Nat) (ts : List Nat),
       List.foldl (fun s v => EventDebouncer.add s p .update v) [] (t :: ts)
         = [(p, .update, (t :: ts).getLastD 0)]) ∧
    (∀ (p : FPath) (t1 t2 : Nat),
       EventDebouncer.add (EventDebouncer.add [] p .add t1) p .update t2
         = [(p, .add, t2)]) ∧
    (∀ (p : FPath) (t1 t2 : Nat),
       EventDebouncer.add (EventDebouncer.add [] p .add t1) p .delete t2
         = []) ∧
    (∀ (p : FPath) (t1 t2 : Nat),
       EventDebouncer.add (EventDebouncer.add [] p .delete t1) p .add t2
         = [(p, .update, t2)]) ∧
    (∀ (s : DebouncePending) (p : FPath) (et : EventType) (t : Nat),
       p ∉ s.map (fun e => e.1) →
       EventDebouncer.add s p et t = s ++ [(p, et, t)]) ∧
    (∀ (s : DebouncePending) (now w : Nat),
       ((EventDebouncer.flush s now w).1).Sublist s ∧
       (∀ e ∈ (EventDebouncer.flush s now w).1, e.2.2 + w ≤ now) ∧
       (∀ e ∈ s, e.2.2 + w ≤ now → e ∈ (EventDebouncer.flush s now w).1) ∧
       (∀ e ∈ (EventDebouncer.flush s now w).2, ¬ e.2.2 + w ≤ now)) := by
  refine ⟨?_, ?_, ?_, ?_, ?_, ?_⟩
  · intro p t ts
    have h0 : EventDebouncer.add [] p .update t = [(p, .update, t)] := rfl
    rw [List.foldl_cons, h0, add_update_run, List.getLastD_cons]
  · intro p t1 t2
    simp [EventDebouncer.add, EventDebouncer.mergeEvents]
  · intro p t1 t2
    simp [EventDebouncer.add, EventDebouncer.mergeEvents]
  · intro p t1 t2
    simp [EventDebouncer.add, EventDebouncer.mergeEvents]
  · intro s p et t
    induction s with
    | nil => intro _; rfl
    | cons hd rest ih =>
      obtain ⟨q, oet, ot⟩ := hd
      intro hp
      have hqp : ¬ q = p := by
        intro h
        exact hp (by simp [h])
      have hrest : p ∉ rest.map (fun e => e.1) := by
        intro h
        exact hp (by simp; exact Or.inr (by simpa using h))
      simp [EventDebouncer.add, hqp, ih hrest]
  · intro s now w
    refine ⟨List.filter_sublist s, ?_, ?_, ?_⟩
    · intro e he
      simpa using List.of_mem_filter he
    · intro e he helapsed
      exact List.mem_filter.mpr ⟨he, by simpa using helapsed⟩
    · intro e he
      simpa using List.of_mem_filter he

/-- Closed instance of C2: a fresh path is appended behind an existing
entry, and ADD then DELETE on one path cancels to no event. -/
theorem debouncer_merge_rules_and_flush_witness :
    EventDebouncer.add [(["a"], EventType.update, 1)] ["b"] EventType.add 2
      = [(["a"], EventType.update, 1), (["b"], EventType.add, 2)] ∧
    EventDebouncer.add (EventDebouncer.add [] ["x"] EventType.add 1) ["x"]
      EventType.delete 2 = [] :=
  ⟨debouncer_merge_rules_and_flush.2.2.2.2.1
      [(["a"], EventType.update, 1)] ["b"] EventType.add 2 (by decide),
   debouncer_merge_rules_and_flush.2.2.1 ["x"] 1 2⟩

/-- If the images of a list under `f` are distinct, at most one element
maps to any given key. -/
theorem length_filter_key_le_one {α β : Type} [DecidableEq β] (f : α → β)
    (k : β) : ∀ (l : List α), (l.map f).Nodup →
      (l.filter (fun e => decide (f e = k))).length ≤ 1 := by
  intro l
  induction l with
  | nil => intro _; simp
  | cons a l ih =>
    intro hnd
    rw [List.map_cons, List.nodup_cons] at hnd
    obtain ⟨ha, hl⟩ := hnd
    by_cases hk : f a = k
    · have hnil : l.filter (fun e => decide (f e = k)) = [] := by
        rw [List.filter_eq_nil_iff]
        intro e he
        simp only [decide_eq_true_eq]
        intro hek
        exact ha (by rw [← hek.trans hk.symm]; exact List.mem_map_of_mem f he)
      simp [List.filter_cons, hk, hnil]
    · simpa [List.filter_cons, hk] using ih hl

/-- C10: the pending map keeps at most one entry per path — `add` preserves
distinctness of the path keys, and a single `flush` of such a state emits
at most one event for any given path. -/
theorem debouncer_at_most_one_entry_per_path :
    (∀ (s : DebouncePending) (p : FPath) (et : EventType) (t : Nat),
       (s.map (fun e => e.1)).Nodup →
       ((EventDebouncer.add s p et t).map (fun e => e.1)).Nodup) ∧
    (∀ (s : DebouncePending) (now w : Nat), (s.map (fun e => e.1)).Nodup →
       (((EventDebouncer.flush s now w).1.map (fun e => e.1)).Nodup ∧
        ∀ pth, ((EventDebouncer.flush s now w).1.filter
          (fun e => decide (e.1 = pth))).length ≤ 1)) := by
  constructor
  · intro s p et t
    induction s with
    | nil =>
      intro _
      simp [EventDebouncer.add]
    | cons hd rest ih =>
      obtain ⟨q, oet, ot⟩ := hd
      intro hnd
      rw [List.map_cons, List.nodup_cons] at hnd
      obtain ⟨hq, hrest⟩ := hnd
      by_cases hqp : q = p
      · subst hqp
        rcases hm : EventDebouncer.mergeEvents oet et with _ | m
        · simpa [EventDebouncer.add, hm] using hrest
        · have hstep : EventDebouncer.add ((q, oet, ot) :: rest) q et t
              = (q, m, t) :: rest := by
            simp [EventDebouncer.add, hm]
          rw [hstep, List.map_cons, List.nodup_cons]
          exact ⟨hq, hrest⟩
      · have hstep : EventDebouncer.add ((q, oet, ot) :: rest) p et t
            = (q, oet, ot) :: EventDebouncer.add rest p et t := by
          simp [EventDebouncer.add, hqp]
        rw [hstep, List.map_cons, List.nodup_cons]
        refine ⟨fun hmem => ?_, ih hrest⟩
        rcases EventDebouncer.keys_add_subset rest p et t q hmem with h | h
        · exact hqp h
        · exact hq h
  · intro s now w hnd
    have hsub : ((EventDebouncer.flush s now w).1.map (fun e => e.1)).Sublist
        (s.map (fun e => e.1)) := List.Sublist.map _ (List.filter_sublist s)
    have hnd2 : ((EventDebouncer.flush s now w).1.map (fun e => e.1)).Nodup :=
      List.Nodup.sublist hsub hnd
    exact ⟨hnd2, fun pth =>
      length_filter_key_le_one (fun e : FPath × EventType × Nat => e.1)
        pth _ hnd2⟩

/-- Closed instance of C10: merging an UPDATE into a two-entry pending map
keeps the path keys distinct. -/
theorem debouncer_at_most_one_entry_per_path_witness :
    ((EventDebouncer.add
        [(["a"], EventType.add, 1), (["b"], EventType.update, 2)]
        ["a"] EventType.update 3).map (fun e => e.1)).Nodup :=
  debouncer_at_most_one_entry_per_path.1
    [(["a"], EventType.add, 1), (["b"], EventType.update, 2)]
    ["a"] EventType.update 3 (by decide)

/-- Status column of a persistent-queue row (`pending, processing, done`). -/
inductive QStatus where
  | pending
  | processing
  | done
deriving DecidableEq, Inhabited

/-- Modelled from the spec: `PersistentQueue`'s implementation is not in
the repository (DESIGN.md gives only its method signatures and SQLite
schema); a queue is its rows `(id, payload, status)` in id order plus the
autoincrement counter. -/
structure PersistentQueue (α : Type) where
  entries : List (Nat × α × QStatus)
  nextId : Nat
deriving DecidableEq

namespace PersistentQueue

/-- A freshly created queue: no rows. -/
def empty {α : Type} : PersistentQueue α := ⟨[], 0⟩

/-- Modelled from the spec: `enqueue(payload) -> id` appends a pending row
with the next autoincrement id. -/
def enqueue {α : Type} (q : PersistentQueue α) (payload : α) :
    PersistentQueue α × Nat :=
  (⟨q.entries ++ [(q.nextId, payload, .pending)], q.nextId + 1⟩, q.nextId)

/-- Enqueue a batch of payloads in order. -/
def enqueueAll {α : Type} (q : PersistentQueue α) (ps : List α) :
    PersistentQueue α :=
  ps.foldl (fun acc p => (enqueue acc p).1) q

/-- Modelled from the spec: `dequeue(batch_size)` returns the oldest
pending rows in FIFO (id) order and marks them `processing` without
removing them. -/
def dequeue {α : Type} (q : PersistentQueue α) (batch : Nat) :
    List (Nat × α) × PersistentQueue α :=
  let picked : List (Nat × α × QStatus) :=
    (q.entries.filter (fun e => decide (e.2.2 = QStatus.pending))).take batch
  let ids : List Nat := picked.map (fun e => e.1)
  (picked.map (fun e => (e.1, e.2.1)),
   ⟨q.entries.map (fun e =>
      if e.1 ∈ ids then (e.1, e.2.1, QStatus.processing) else e), q.nextId⟩)

/-- Modelled from the spec: `ack(ids)` marks the given rows `done`. -/
def ack {α : Type} (q : PersistentQueue α) (ids : List Nat) :
    PersistentQueue α :=
  ⟨q.entries.map (fun e =>
     if e.1 ∈ ids then (e.1, e.2.1, QStatus.done) else e), q.nextId⟩

/-- Modelled from the spec: `requeue_unacked()` resets every `processing`
row back to `pending` (crash recovery) and reports how many it reset. -/
def requeue_unacked {α : Type} (q : PersistentQueue α) :
    PersistentQueue α × Nat :=
  (⟨q.entries.map (fun e =>
      if e.2.2 = QStatus.processing then (e.1, e.2.1, QStatus.pending)
      else e), q.nextId⟩,
   (q.entries.filter (fun e => decide (e.2.2 = QStatus.processing))).length)

/-- The payload column of the queue, in id order. -/
def payloads {α : Type} (q : PersistentQueue α) : List α :=
  q.entries.map (fun e => e.2.1)

/-- Every row of the queue is `pending`. -/
def allPending {α : Type} (q : PersistentQueue α) : Prop :=
  ∀ e ∈ q.entries, e.2.2 = QStatus.pending

/-- Enqueueing a batch appends its payloads in order. -/
theorem payloads_enqueueAll {α : Type} :
    ∀ (ps : List α) (q : PersistentQueue α),
      payloads (enqueueAll q ps) = payloads q ++ ps := by
  intro ps
  induction ps with
  | nil => intro q; simp [enqueueAll, payloads]
  | cons p ps ih =>
    intro q
    have hstep : enqueueAll q (p :: ps) = enqueueAll (enqueue q p).1 ps := rfl
    rw [hstep, ih]
    simp [enqueue, payloads]

/-- Enqueueing preserves the all-pending state. -/
theorem allPending_enqueueAll {α : Type} :
    ∀ (ps : List α) (q : PersistentQueue α),
      allPending q → allPending (enqueueAll q ps) := by
  intro ps
  induction ps with
  | nil => intro q h; exact h
  | cons p ps ih =>
    intro q h
    have hstep : enqueueAll q (p :: ps) = enqueueAll (enqueue q p).1 ps := rfl
    rw [hstep]
    refine ih _ ?_
    intro e he
    simp [enqueue] at he
    rcases he with he | he
    · exact h e he
    · simp [he]

/-- On an all-pending queue, `dequeue` hands out the first `batch` rows. -/
theorem dequeue_of_allPending {α : Type} (q : PersistentQueue α) (batch : Nat)
    (h : allPending q) :
    (dequeue q batch).1 = (q.entries.take batch).map (fun e => (e.1, e.2.1)) := by
  have hfil : q.entries.filter (fun e => decide (e.2.2 = QStatus.pending))
      = q.entries :=
    List.filter_eq_self.mpr (fun e he => by simp [h e he])
  simp [dequeue, hfil]

/-- Marking a pending row `processing` (for any id set) and then resetting
`processing` rows to `pending` gives the row back unchanged. -/
theorem mark_unmark_pending {α : Type} (S : List Nat) (e : Nat × α × QStatus)
    (h : e.2.2 = QStatus.pending) :
    ((fun e => if e.2.2 = QStatus.processing
        then (e.1, e.2.1, QStatus.pending) else e) ∘
      (fun e : Nat × α × QStatus =>
        if e.1 ∈ S then (e.1, e.2.1, QStatus.processing) else e)) e = e := by
  obtain ⟨i, p, s⟩ := e
  have hs : s = QStatus.pending := h
  subst hs
  by_cases hid : i ∈ S
  · simp [Function.comp, hid]
  · simp [Function.comp, hid]

/-- Crash recovery after a partial dequeue with no acks restores the queue
exactly: marking rows `processing` then resetting `processing` rows to
`pending` is the identity on an all-pending queue. -/
theorem requeue_after_dequeue {α : Type} (q : PersistentQueue α) (batch : Nat)
    (h : allPending q) :
    (requeue_unacked (dequeue q batch).2).1 = q := by
  obtain ⟨entries, nextId⟩ := q
  simp only [dequeue, requeue_unacked, List.map_map, PersistentQueue.mk.injEq,
    and_true]
  rw [List.map_congr_left (fun e he => mark_unmark_pending _ e (h e he))]
  simp
end PersistentQueue

/-- C4: enqueue `n` payloads, dequeue `k < n` without acking, restart and
`requeue_unacked()` — the first dequeue handed out the first `k` payloads
in FIFO order, and after recovery a full dequeue redelivers all `n`
payloads in their original enqueue order (none lost, none duplicated
beyond the `k` in flight). -/
theorem persistent_queue_crash_recovery {α : Type} (ps : List α) (k : Nat)
    (_hk : k < ps.length) :
    ((PersistentQueue.dequeue
        (PersistentQueue.enqueueAll (PersistentQueue.empty : PersistentQueue α)
          ps) k).1.map (fun e => e.2) = ps.take k) ∧
    ((PersistentQueue.dequeue
        ((PersistentQueue.requeue_unacked
          (PersistentQueue.dequeue
            (PersistentQueue.enqueueAll
              (PersistentQueue.empty : PersistentQueue α) ps) k).2).1)
        ps.length).1.map (fun e => e.2) = ps) := by
  set q0 := PersistentQueue.enqueueAll
    (PersistentQueue.empty : PersistentQueue α) ps with hq0
  have hpend : PersistentQueue.allPending q0 :=
    PersistentQueue.allPending_enqueueAll ps _
      (fun e he => by simp [PersistentQueue.empty] at he)
  have hpay : PersistentQueue.payloads q0 = ps := by
    rw [hq0, PersistentQueue.payloads_enqueueAll]
    simp [PersistentQueue.empty, PersistentQueue.payloads]
  constructor
  · rw [PersistentQueue.dequeue_of_allPending q0 k hpend, List.map_map,
      List.map_take]
    show (PersistentQueue.payloads q0).take k = ps.take k
    rw [hpay]
  · rw [PersistentQueue.requeue_after_dequeue q0 k hpend,
      PersistentQueue.dequeue_of_allPending q0 ps.length hpend]
    have hlen : q0.entries.length = ps.length := by
      have hc := congrArg List.length hpay
      simpa [PersistentQueue.payloads] using hc
    rw [List.take_of_length_le (le_of_eq hlen), List.map_map]
    exact hpay

/-- Closed instance of C4: five payloads, three dequeued in flight, all
five redelivered in order after recovery. -/
theorem persistent_queue_crash_recovery_witness :
    ((PersistentQueue.dequeue
        (PersistentQueue.enqueueAll (PersistentQueue.empty : PersistentQueue Nat)
          [10, 20, 30, 40, 50]) 3).1.map (fun e => e.2)
      = ([10, 20, 30, 40, 50] : List Nat).take 3) ∧
    ((PersistentQueue.dequeue
        ((PersistentQueue.requeue_unacked
          (PersistentQueue.dequeue
            (PersistentQueue.enqueueAll
              (PersistentQueue.empty : PersistentQueue Nat)
              [10, 20, 30, 40, 50]) 3).2).1)
        ([10, 20, 30, 40, 50] : List Nat).length).1.map (fun e => e.2)
      = [10, 20, 30, 40, 50]) :=
  persistent_queue_crash_recovery [10, 20, 30, 40, 50] 3 (by decide)

/-- A row of the `documents` table. -/
structure DocumentRow where
  file_path : FPath
  content_hash : String
deriving DecidableEq

/-- A row of the `chunks` table. -/
structure ChunkRow where
  chunk_id : Nat
  file_path : FPath
  chunk_index : Nat
  content : String
deriving DecidableEq

/-- A row of the `embeddings` table. -/
structure EmbeddingRow where
  chunk_id : Nat
  vector : List ℚ
  model_id : String
deriving DecidableEq

/-- The vector store's three tables (`store.py` schema). -/
structure VectorStore where
  documents : List DocumentRow
  chunks : List ChunkRow
  embeddings : List EmbeddingRow
deriving DecidableEq

namespace VectorStore

/-- Modelled from the spec: the body of `document_exists(file_path,
content_hash)` is not in the repository; per its docstring it checks
whether a document row with this path and the same hash exists. -/
def document_exists (s : VectorStore) (path : FPath) (hash : String) : Bool :=
  s.documents.any (fun d =>
    decide (d.file_path = path) && decide (d.content_hash = hash))

/-- Modelled from the spec: the body of `remove_document(file_path)` is not
in the repository; it deletes the document row, its chunks cascade away,
embeddings of those chunks cascade away, and the removed chunk count is
returned. -/
def remove_document (s : VectorStore) (path : FPath) : VectorStore × Nat :=
  let removedIds : List Nat :=
    (s.chunks.filter (fun c => decide (c.file_path = path))).map
      (fun c => c.chunk_id)
  (⟨s.documents.filter (fun d => !decide (d.file_path = path)),
    s.chunks.filter (fun c => !decide (c.file_path = path)),
    s.embeddings.filter (fun e => !removedIds.contains e.chunk_id)⟩,
   (s.chunks.filter (fun c => decide (c.file_path = path))).length)

/-- Modelled from the spec: `IndexerProcess._handle_add_or_update` exists
only as numbered comments in the repository — on a successful parse,
compute the content hash, skip when `document_exists` reports the same
hash, otherwise remove the old rows and store the new document, chunks and
embeddings.  `hashFn` abstracts SHA-256; `chunker`/`embedder` are the
configured pipeline stages. -/
def handle_add_or_update (hashFn : String → String)
    (chunker : FPath → String → List ChunkRow)
    (embedder : String → List ℚ) (model_id : String)
    (s : VectorStore) (path : FPath) (content : String) : VectorStore :=
  let h := hashFn content
  if document_exists s path h then s
  else
    let s1 := (remove_document s path).1
    let newChunks := chunker path content
    ⟨s1.documents ++ [⟨path, h⟩],
     s1.chunks ++ newChunks,
     s1.embeddings ++ newChunks.map
       (fun c => ⟨c.chunk_id, embedder c.content, model_id⟩)⟩

end VectorStore

/-- C5: re-processing an ADD/UPDATE whose parsed content hashes to the
value already stored for that path writes nothing — the resulting store is
the old store, so its chunk, embedding and document tables are untouched. -/
theorem unchanged_hash_noop (hashFn : String → String)
    (chunker : FPath → String → List ChunkRow)
    (embedder : String → List ℚ) (model_id : String)
    (s : VectorStore) (path : FPath) (content : String)
    (h : VectorStore.document_exists s path (hashFn content) = true) :
    VectorStore.handle_add_or_update hashFn chunker embedder model_id
      s path content = s ∧
    (VectorStore.handle_add_or_update hashFn chunker embedder model_id
      s path content).chunks = s.chunks ∧
    (VectorStore.handle_add_or_update hashFn chunker embedder model_id
      s path content).embeddings = s.embeddings ∧
    (VectorStore.handle_add_or_update hashFn chunker embedder model_id
      s path content).documents = s.documents := by
  have he : VectorStore.handle_add_or_update hashFn chunker embedder model_id
      s path content = s := by
    simp [VectorStore.handle_add_or_update, h]
  exact ⟨he, by rw [he], by rw [he], by rw [he]⟩

/-- Closed instance of C5: re-indexing `a/x.txt` with its stored content
leaves the one-document, one-chunk, one-embedding store unchanged, even
with a chunker and embedder that would write if run. -/
theorem unchanged_hash_noop_witness :
    VectorStore.handle_add_or_update (fun c => c)
      (fun p c => [⟨2, p, 0, c⟩]) (fun _ => [1]) "m"
      ⟨[⟨["a", "x.txt"], "hello"⟩], [⟨1, ["a", "x.txt"], 0, "hello"⟩],
        [⟨1, [1], "m"⟩]⟩
      ["a", "x.txt"] "hello"
      = ⟨[⟨["a", "x.txt"], "hello"⟩], [⟨1, ["a", "x.txt"], 0, "hello"⟩],
        [⟨1, [1], "m"⟩]⟩ :=
  (unchanged_hash_noop (fun c => c) (fun p c => [⟨2, p, 0, c⟩]) (fun _ => [1])
    "m"
    ⟨[⟨["a", "x.txt"], "hello"⟩], [⟨1, ["a", "x.txt"], 0, "hello"⟩],
      [⟨1, [1], "m"⟩]⟩
    ["a", "x.txt"] "hello" (by decide)).1

/-- A chunk joined with its embedding vector, as the search query reads it
from the `chunks`/`embeddings` tables. -/
structure EmbChunk where
  file_path : FPath
  chunk_index : Nat
  content : String
  embedding : List ℚ
deriving DecidableEq

/-- `SearchResult` from `models.py`, restricted to the fields the ranking
contract concerns: the chunk and its similarity score. -/
structure SearchResult where
  chunk : EmbChunk
  score : ℚ
deriving DecidableEq

namespace VectorStore

/-- Ranking order of `search`: higher score first, ties broken by
`chunk_index` ascending. -/
def searchLe (a b : SearchResult) : Bool :=
  decide (b.score < a.score) ||
    (decide (a.score = b.score) &&
      decide (a.chunk.chunk_index ≤ b.chunk.chunk_index))

/-- Modelled from the spec: the body of `VectorStore.search` is not in the
repository (signature only); per the spec it scores every candidate chunk
with cosine similarity against the query, keeps those meeting `min_score`
(and the optional path filter), ranks by score descending with a stable
`chunk_index` tie-break, and truncates to `top_k`.  The real-valued cosine
metric is abstracted as the parameter `sim`: the contract proved below is
about ranking, threshold and truncation, which do not depend on the metric. -/
def search (sim : List ℚ → List ℚ → ℚ) (rows : List EmbChunk)
    (query_embedding : List ℚ) (top_k : Nat)
    (filter_paths : Option (List FPath)) (min_score : ℚ) :
    List SearchResult :=
  let pool : List EmbChunk :=
    match filter_paths with
    | none => rows
    | some fps => rows.filter (fun c => fps.contains c.file_path)
  let scored : List SearchResult :=
    pool.map (fun c => ⟨c, sim query_embedding c.embedding⟩)
  let kept : List SearchResult :=
    scored.filter (fun r => decide (min_score ≤ r.score))
  (kept.mergeSort searchLe).take top_k

/-- The boolean ranking order, read as a proposition. -/
theorem searchLe_eq_true_iff (a b : SearchResult) :
    searchLe a b = true ↔
      (b.score < a.score ∨
        (a.score = b.score ∧ a.chunk.chunk_index ≤ b.chunk.chunk_index)) := by
  simp [searchLe]

/-- The ranking order is transitive. -/
theorem searchLe_trans (a b c : SearchResult) (hab : searchLe a b = true)
    (hbc : searchLe b c = true) : searchLe a c = true := by
  rw [searchLe_eq_true_iff] at hab hbc ⊢
  rcases hab with h1 | ⟨h1, h2⟩
  · rcases hbc with h3 | ⟨h3, h4⟩
    · exact Or.inl (h3.trans h1)
    · exact Or.inl (by rw [← h3]; exact h1)
  · rcases hbc with h3 | ⟨h3, h4⟩
    · exact Or.inl (by rw [h1]; exact h3)
    · exact Or.inr ⟨h1.trans h3, h2.trans h4⟩

/-- The ranking order is total. -/
theorem searchLe_total (a b : SearchResult) :
    (searchLe a b || searchLe b a) = true := by
  simp only [Bool.or_eq_true, searchLe_eq_true_iff]
  rcases lt_trichotomy a.score b.score with h | h | h
  · exact Or.inr (Or.inl h)
  · rcases le_total a.chunk.chunk_index b.chunk.chunk_index with h2 | h2
    · exact Or.inl (Or.inr ⟨h, h2⟩)
    · exact Or.inr (Or.inr ⟨h.symm, h2⟩)
  · exact Or.inl (Or.inl h)

end VectorStore

/-- Truncating the ranked list never exceeds `top_k`. -/
theorem search_core_length (kept : List SearchResult) (k : Nat) :
    ((kept.mergeSort VectorStore.searchLe).take k).length ≤ k :=
  List.length_take_le k _

/-- The truncated ranked list is sorted by score descending with the
`chunk_index` tie-break. -/
theorem search_core_sorted (kept : List SearchResult) (k : Nat) :
    List.Pairwise (fun a b : SearchResult =>
        b.score < a.score ∨
          (a.score = b.score ∧ a.chunk.chunk_index ≤ b.chunk.chunk_index))
      ((kept.mergeSort VectorStore.searchLe).take k) := by
  have hsorted := List.sorted_mergeSort VectorStore.searchLe_trans
    VectorStore.searchLe_total kept
  exact (List.Pairwise.sublist (List.take_sublist k _) hsorted).imp
    (fun h => (VectorStore.searchLe_eq_true_iff _ _).mp h)

/-- Every ranked, truncated result comes from the kept candidates. -/
theorem search_core_mem (kept : List SearchResult) (k : Nat) :
    ∀ r ∈ (kept.mergeSort VectorStore.searchLe).take k, r ∈ kept := by
  intro r hr
  exact (List.mergeSort_perm kept VectorStore.searchLe).mem_iff.mp
    ((List.take_sublist k _).subset hr)

/-- C6: `search` returns at most `top_k` results, ranked by score
descending with ties broken by `chunk_index` ascending, all meeting
`min_score`; and when fewer chunks exist than `top_k` (with no path
filter and every score meeting the threshold, as with the default
`min_score = 0` on normalized scores) every chunk comes back. -/
theorem search_contract (sim : List ℚ → List ℚ → ℚ) (rows : List EmbChunk)
    (qe : List ℚ) (k : Nat) (fp : Option (List FPath)) (ms : ℚ) :
    (VectorStore.search sim rows qe k fp ms).length ≤ k ∧
    List.Pairwise (fun a b : SearchResult =>
        b.score < a.score ∨
          (a.score = b.score ∧ a.chunk.chunk_index ≤ b.chunk.chunk_index))
      (VectorStore.search sim rows qe k fp ms) ∧
    (∀ r ∈ VectorStore.search sim rows qe k fp ms, ms ≤ r.score) ∧
    (rows.length < k → fp = none → (∀ c ∈ rows, ms ≤ sim qe c.embedding) →
      ((VectorStore.search sim rows qe k fp ms).length = rows.length ∧
       ∀ c ∈ rows, (⟨c, sim qe c.embedding⟩ : SearchResult)
         ∈ VectorStore.search sim rows qe k fp ms)) := by
  rcases fp with _ | fps
  · have hunfold : VectorStore.search sim rows qe k none ms
        = (((rows.map
            (fun c => (⟨c, sim qe c.embedding⟩ : SearchResult))).filter
            (fun r => decide (ms ≤ r.score))).mergeSort
              VectorStore.searchLe).take k := rfl
    rw [hunfold]
    refine ⟨search_core_length _ k, search_core_sorted _ k, ?_, ?_⟩
    · intro r hr
      have hk := search_core_mem _ k r hr
      simpa using List.of_mem_filter hk
    · intro hfew _ hpass
      have hkeep : (rows.map
            (fun c => (⟨c, sim qe c.embedding⟩ : SearchResult))).filter
            (fun r => decide (ms ≤ r.score))
          = rows.map (fun c => (⟨c, sim qe c.embedding⟩ : SearchResult)) := by
        refine List.filter_eq_self.mpr ?_
        intro r hr
        obtain ⟨c, hc, rfl⟩ := List.mem_map.mp hr
        simpa using hpass c hc
      have hle : ((rows.map
            (fun c => (⟨c, sim qe c.embedding⟩ : SearchResult))).mergeSort
              VectorStore.searchLe).length ≤ k := by
        rw [List.length_mergeSort, List.length_map]
        exact Nat.le_of_lt hfew
      rw [hkeep, List.take_of_length_le hle]
      constructor
      · rw [List.length_mergeSort, List.length_map]
      · intro c hc
        exact (List.mergeSort_perm _ VectorStore.searchLe).mem_iff.mpr
          (List.mem_map_of_mem _ hc)
  · have hunfold : VectorStore.search sim rows qe k (some fps) ms
        = ((((rows.filter (fun c => fps.contains c.file_path)).map
            (fun c => (⟨c, sim qe c.embedding⟩ : SearchResult))).filter
            (fun r => decide (ms ≤ r.score))).mergeSort
              VectorStore.searchLe).take k := rfl
    rw [hunfold]
    refine ⟨search_core_length _ k, search_core_sorted _ k, ?_,
      fun _ hfp _ => Option.noConfusion hfp⟩
    intro r hr
    have hk := search_core_mem _ k r hr
    simpa using List.of_mem_filter hk

/-- Closed instance of C6: three chunks, `top_k = 5`, no filter, threshold
0 with a nonnegative metric — all three come back. -/
theorem search_contract_witness :
    (VectorStore.search (fun _ _ => 1)
      [⟨["a", "x"], 0, "c0", [1, 0]⟩, ⟨["a", "x"], 1, "c1", [0, 1]⟩,
       ⟨["a", "y"], 0, "c2", [1, 1]⟩]
      [1, 0] 5 none 0).length = 3 :=
  ((search_contract (fun _ _ => 1)
    [⟨["a", "x"], 0, "c0", [1, 0]⟩, ⟨["a", "x"], 1, "c1", [0, 1]⟩,
     ⟨["a", "y"], 0, "c2", [1, 1]⟩]
    [1, 0] 5 none 0).2.2.2 (by decide) rfl (by decide)).1

/-- A document row as the root-removal path sees it: the document and the
watched root it was indexed under. -/
structure IndexedDoc where
  path : FPath
  root : FPath
deriving DecidableEq

/-- `WatcherCommand` from `models.py`. -/
inductive WatcherCommand where
  | add_root (root : FPath)
  | remove_root (root : FPath)
  | shutdown
deriving DecidableEq

/-- The indexer-owned persistent state that `remove_root` touches: the
roots table, the document/chunk/embedding rows, and the command queue
toward the watcher. -/
structure IndexerState where
  roots : List FPath
  documents : List IndexedDoc
  chunks : List ChunkRow
  embeddings : List EmbeddingRow
  commands : List WatcherCommand
deriving DecidableEq

namespace IndexerProcess

/-- Modelled from the spec: step 1 of `IndexerProcess.remove_root` (its
body exists only as prose in the repository) — remove the root's
documents from the VectorStore; their chunks cascade away and those
chunks' embeddings cascade away. -/
def removeDocumentsForRoot (s : IndexerState) (r : FPath) : IndexerState :=
  let removedPaths : List FPath :=
    (s.documents.filter (fun d => decide (d.root = r))).map (fun d => d.path)
  let removedChunkIds : List Nat :=
    (s.chunks.filter (fun c => removedPaths.contains c.file_path)).map
      (fun c => c.chunk_id)
  ⟨s.roots,
   s.documents.filter (fun d => !decide (d.root = r)),
   s.chunks.filter (fun c => !removedPaths.contains c.file_path),
   s.embeddings.filter (fun e => !removedChunkIds.contains e.chunk_id),
   s.commands⟩

/-- Modelled from the spec: step 2 of `remove_root` — delete the root row. -/
def delete_root_row (s : IndexerState) (r : FPath) : IndexerState :=
  ⟨s.roots.erase r, s.documents, s.chunks, s.embeddings, s.commands⟩

/-- Modelled from the spec: step 3 of `remove_root` — command the
WatcherProcess to stop watching the root. -/
def command_stop_watching (s : IndexerState) (r : FPath) : IndexerState :=
  ⟨s.roots, s.documents, s.chunks, s.embeddings,
   s.commands ++ [WatcherCommand.remove_root r]⟩

/-- Every state `remove_root` passes through, in execution order. -/
def remove_root_trace (s : IndexerState) (r : FPath) : List IndexerState :=
  [s,
   removeDocumentsForRoot s r,
   delete_root_row (removeDocumentsForRoot s r) r,
   command_stop_watching (delete_root_row (removeDocumentsForRoot s r) r) r]

/-- Modelled from the spec: `remove_root(root)` runs the three steps in
order and ends in the last traced state. -/
def remove_root (s : IndexerState) (r : FPath) : IndexerState :=
  command_stop_watching (delete_root_row (removeDocumentsForRoot s r) r) r

end IndexerProcess

/-- After step 1 every surviving chunk still has its document, and that
document belongs to a root other than the removed one. -/
theorem removeDocs_chunk_wf (s : IndexerState) (r : FPath)
    (hwf : ∀ c ∈ s.chunks, ∃ d ∈ s.documents,
      d.path = c.file_path ∧ d.root ∈ s.roots) :
    ∀ c ∈ (IndexerProcess.removeDocumentsForRoot s r).chunks,
      ∃ d ∈ (IndexerProcess.removeDocumentsForRoot s r).documents,
        d.path = c.file_path ∧ d.root ∈ s.roots ∧ d.root ≠ r := by
  intro c hc
  obtain ⟨hcs, hnotrem⟩ := List.mem_filter.mp hc
  obtain ⟨d, hd, hdp, hdr⟩ := hwf c hcs
  simp at hnotrem
  have hdnr : d.root ≠ r := fun h => hnotrem d hd h hdp
  exact ⟨d, List.mem_filter.mpr ⟨hd, by simp [hdnr]⟩, hdp, hdr, hdnr⟩

/-- C7: `remove_root` removes the root's documents (with their chunks and
embeddings) while the root row is still present, then deletes the root
row with no watcher command issued yet, then appends the stop-watching
command; along the whole trace no chunk ever references a document whose
root row is gone. -/
theorem remove_root_ordering (s : IndexerState) (r : FPath)
    (hnd : s.roots.Nodup) (hr : r ∈ s.roots)
    (hwf : ∀ c ∈ s.chunks, ∃ d ∈ s.documents,
      d.path = c.file_path ∧ d.root ∈ s.roots) :
    (r ∈ (IndexerProcess.removeDocumentsForRoot s r).roots ∧
     (∀ c ∈ (IndexerProcess.removeDocumentsForRoot s r).chunks,
        ∀ d ∈ s.documents, d.root = r → c.file_path ≠ d.path) ∧
     (∀ e ∈ (IndexerProcess.removeDocumentsForRoot s r).embeddings,
        ∀ c ∈ s.chunks,
          (∃ d ∈ s.documents, d.root = r ∧ c.file_path = d.path) →
          e.chunk_id ≠ c.chunk_id)) ∧
    (r ∉ (IndexerProcess.delete_root_row
        (IndexerProcess.removeDocumentsForRoot s r) r).roots ∧
     (IndexerProcess.delete_root_row
        (IndexerProcess.removeDocumentsForRoot s r) r).commands
       = s.commands) ∧
    ((IndexerProcess.remove_root s r).commands
        = s.commands ++ [WatcherCommand.remove_root r] ∧
     (IndexerProcess.remove_root s r).roots
        = (IndexerProcess.delete_root_row
            (IndexerProcess.removeDocumentsForRoot s r) r).roots) ∧
    (∀ st ∈ IndexerProcess.remove_root_trace s r, ∀ c ∈ st.chunks,
       ∃ d ∈ st.documents, d.path = c.file_path ∧ d.root ∈ st.roots) := by
  have hcore := removeDocs_chunk_wf s r hwf
  refine ⟨⟨hr, ?_, ?_⟩, ⟨List.Nodup.not_mem_erase hnd, rfl⟩, ⟨rfl, rfl⟩, ?_⟩
  · intro c hc d hd hdr heq
    obtain ⟨hcs, hnotrem⟩ := List.mem_filter.mp hc
    simp at hnotrem
    exact hnotrem d hd hdr heq.symm
  · intro e he c hc hex heq
    obtain ⟨d, hd, hdr, hcp⟩ := hex
    obtain ⟨hes, henotrem⟩ := List.mem_filter.mp he
    simp at henotrem
    exact henotrem c hc d hd hdr hcp.symm heq.symm
  · intro st hst
    simp only [IndexerProcess.remove_root_trace, List.mem_cons,
      List.mem_singleton, List.not_mem_nil, or_false] at hst
    rcases hst with rfl | rfl | rfl | rfl
    · exact hwf
    · intro c hc
      obtain ⟨d, hd, hdp, hdr, _⟩ := hcore c hc
      exact ⟨d, hd, hdp, hdr⟩
    · intro c hc
      obtain ⟨d, hd, hdp, hdr, hdnr⟩ := hcore c hc
      exact ⟨d, hd, hdp, (List.mem_erase_of_ne hdnr).mpr hdr⟩
    · intro c hc
      obtain ⟨d, hd, hdp, hdr, hdnr⟩ := hcore c hc
      exact ⟨d, hd, hdp, (List.mem_erase_of_ne hdnr).mpr hdr⟩

/-- Closed instance of C7: removing root `a` from a two-root store — the
root row is gone at step 2, and the watcher command is the last effect. -/
theorem remove_root_ordering_witness :
    ["a"] ∉ (IndexerProcess.delete_root_row
        (IndexerProcess.removeDocumentsForRoot
          ⟨[["a"], ["b"]],
           [⟨["a", "x"], ["a"]⟩, ⟨["b", "y"], ["b"]⟩],
           [⟨1, ["a", "x"], 0, "t"⟩, ⟨2, ["b", "y"], 0, "u"⟩],
           [⟨1, [1], "m"⟩, ⟨2, [1], "m"⟩], []⟩ ["a"]) ["a"]).roots ∧
    (IndexerProcess.remove_root
        ⟨[["a"], ["b"]],
         [⟨["a", "x"], ["a"]⟩, ⟨["b", "y"], ["b"]⟩],
         [⟨1, ["a", "x"], 0, "t"⟩, ⟨2, ["b", "y"], 0, "u"⟩],
         [⟨1, [1], "m"⟩, ⟨2, [1], "m"⟩], []⟩ ["a"]).commands
      = [WatcherCommand.remove_root ["a"]] :=
  ⟨(remove_root_ordering
      ⟨[["a"], ["b"]],
       [⟨["a", "x"], ["a"]⟩, ⟨["b", "y"], ["b"]⟩],
       [⟨1, ["a", "x"], 0, "t"⟩, ⟨2, ["b", "y"], 0, "u"⟩],
       [⟨1, [1], "m"⟩, ⟨2, [1], "m"⟩], []⟩ ["a"]
      (by decide) (by decide) (by decide)).2.1.1,
   (remove_root_ordering
      ⟨[["a"], ["b"]],
       [⟨["a", "x"], ["a"]⟩, ⟨["b", "y"], ["b"]⟩],
       [⟨1, ["a", "x"], 0, "t"⟩, ⟨2, ["b", "y"], 0, "u"⟩],
       [⟨1, [1], "m"⟩, ⟨2, [1], "m"⟩], []⟩ ["a"]
      (by decide) (by decide) (by decide)).2.2.1.1⟩
